import Mathlib

/-!
Shallow embedding of the hl2mp-maps-downloader synchronization core
(src/main.cpp, src/main.hpp) and proofs about it.

Strings are modelled as `List Char`.  `std::isspace` / `std::tolower` in the
default C locale act on ASCII only, which is what `isSpaceAscii` and
`toLowerAscii` implement.  The filesystem, the HTTP transport and the bzip2
stream are modelled by explicit environments: a function from attempt index to
the observable outcome of that attempt, exactly mirroring the order in which
the source reads those observables.
-/

/-- ASCII model of `std::isspace` in the default C locale. -/
def isSpaceAscii (c : Char) : Bool :=
  c = ' ' || c = '\t' || c = '\n' || c = '\x0b' || c = '\x0c' || c = '\r'

/-- ASCII model of `std::tolower` in the default C locale. -/
def toLowerAscii (c : Char) : Char :=
  if 'A' ≤ c ∧ c ≤ 'Z' then Char.ofNat (c.toNat + 32) else c

/-- `lower_copy` from src/main.cpp:41: lowercase every character. -/
def lower_copy (s : List Char) : List Char := s.map toLowerAscii

/-- Helper for `trim`: drop trailing whitespace (the `pop_back` loop). -/
def dropTrail (s : List Char) : List Char :=
  (s.reverse.dropWhile isSpaceAscii).reverse

/-- `trim` from src/main.cpp:34: erase leading whitespace, then pop trailing
whitespace. -/
def trim (s : List Char) : List Char :=
  dropTrail (s.dropWhile isSpaceAscii)

/-- `std::string::find(t) != npos`: `pat` occurs as a contiguous substring of
the argument list. -/
def strFind (pat : List Char) : List Char → Bool
  | [] => pat.isPrefixOf []
  | c :: rest => pat.isPrefixOf (c :: rest) || strFind pat rest

/-- `SourceEntry` from src/main.hpp:13. -/
structure SourceEntry where
  url : List Char
  enabled : Bool
  last_latency_ms : Int
  last_ok : Bool
deriving DecidableEq, Repr

/-- The effective comparison key used by `pick_best_source`
(src/main.cpp:581-582): a non-negative latency is itself, `-1` (and any other
negative value) becomes the sentinel `1000000`. -/
def latKey (s : SourceEntry) : Int :=
  if 0 ≤ s.last_latency_ms then s.last_latency_ms else 1000000

/-- The accumulator loop of `pick_best_source` (src/main.cpp:576-587): `best`
starts as null; each source replaces `best` iff its key is strictly smaller. -/
def pickGo : Option SourceEntry → List SourceEntry → Option SourceEntry
  | best, [] => best
  | none, s :: rest => pickGo (some s) rest
  | some b, s :: rest => pickGo (some (if latKey s < latKey b then s else b)) rest

/-- `pick_best_source` from src/main.cpp:576. -/
def pick_best_source (srcs : List SourceEntry) : Option SourceEntry :=
  pickGo none srcs

lemma pickGo_spec (l : List SourceEntry) :
    ∀ b : SourceEntry, ∃ m pre post,
      pickGo (some b) l = some m ∧
      b :: l = pre ++ m :: post ∧
      (∀ t ∈ pre, latKey m < latKey t) ∧
      (∀ t ∈ b :: l, latKey m ≤ latKey t) := by
  induction l with
  | nil =>
      intro b
      exact ⟨b, [], [], rfl, rfl, by simp, by simp⟩
  | cons s rest ih =>
      intro b
      by_cases hlt : latKey s < latKey b
      · obtain ⟨m, pre, post, hrun, hdec, hpre, hmin⟩ := ih s
        refine ⟨m, b :: pre, post, ?_, ?_, ?_, ?_⟩
        · simpa [pickGo, hlt] using hrun
        · simpa using congrArg (List.cons b) hdec
        · intro t ht
          rcases List.mem_cons.mp ht with h | h
          · subst h
            have hms : latKey m ≤ latKey s := hmin s (by simp)
            omega
          · exact hpre t h
        · intro t ht
          rcases List.mem_cons.mp ht with h | h
          · subst h
            have hms : latKey m ≤ latKey s := hmin s (by simp)
            omega
          · exact hmin t h
      · obtain ⟨m, pre, post, hrun, hdec, hpre, hmin⟩ := ih b
        have hbs : latKey b ≤ latKey s := by omega
        cases pre with
        | nil =>
            have hmb : m = b ∧ post = rest := by simpa using hdec.symm
            obtain ⟨hmb, -⟩ := hmb
            subst hmb
            refine ⟨m, [], s :: rest, ?_, by simp, by simp, ?_⟩
            · simpa [pickGo, hlt] using hrun
            · intro t ht
              rcases List.mem_cons.mp ht with h | h
              · subst h; omega
              · rcases List.mem_cons.mp h with h2 | h2
                · subst h2; exact hbs
                · exact hmin t (List.mem_cons_of_mem _ h2)
        | cons p0 pre' =>
            have hthis := hdec
            simp only [List.cons_append] at hthis
            injection hthis with hp0 hrest
            subst hp0
            refine ⟨m, b :: s :: pre', post, ?_, ?_, ?_, ?_⟩
            · simpa [pickGo, hlt] using hrun
            · simp [hrest]
            · intro t ht
              have hmp0 : latKey m < latKey b := hpre b (by simp)
              rcases List.mem_cons.mp ht with h | h
              · subst h; exact hmp0
              · rcases List.mem_cons.mp h with h2 | h2
                · subst h2; omega
                · exact hpre t (List.mem_cons_of_mem _ h2)
            · intro t ht
              have hmp0 : latKey m < latKey b := hpre b (by simp)
              rcases List.mem_cons.mp ht with h | h
              · subst h; omega
              · rcases List.mem_cons.mp h with h2 | h2
                · subst h2; omega
                · exact hmin t (List.mem_cons_of_mem _ h2)

/-- `passes_filters` from src/main.cpp:67: lowercase the filename; if the
include list is non-empty, require some non-empty include token to occur in
the name; then reject if any non-empty exclude token occurs in the name. -/
def passes_filters (filename : List Char) (includes excludes : List (List Char)) : Bool :=
  let name := lower_copy filename
  let incPass : Bool :=
    if includes.isEmpty then true
    else includes.any (fun t => !t.isEmpty && strFind t name)
  if !incPass then false
  else if excludes.any (fun t => !t.isEmpty && strFind t name) then false
  else true

/-- Accumulator of the reconciliation loop in `run_pipeline`
(src/main.cpp:790-799): after-filter count, already-present count,
to-download count and the download worklist `to_get`. -/
structure Recon where
  afterFilters : Nat
  alreadyHave : Nat
  toDownload : Nat
  toGet : List (List Char)
deriving DecidableEq, Repr

/-- One iteration of the reconciliation loop of `run_pipeline`
(src/main.cpp:790-799), applied to one availability-map key. -/
def reconcileStep (includes excludes existing : List (List Char))
    (acc : Recon) (name : List Char) : Recon :=
  if passes_filters name includes excludes then
    if name ∈ existing then
      { acc with afterFilters := acc.afterFilters + 1,
                 alreadyHave := acc.alreadyHave + 1 }
    else
      { acc with afterFilters := acc.afterFilters + 1,
                 toDownload := acc.toDownload + 1,
                 toGet := acc.toGet ++ [name] }
  else acc

/-- The reconciliation loop of `run_pipeline` (src/main.cpp:787-799) over the
availability-map keys, starting from zeroed counters and an empty worklist. -/
def reconcile (availNames includes excludes existing : List (List Char)) : Recon :=
  availNames.foldl (reconcileStep includes excludes existing) ⟨0, 0, 0, []⟩

/-- One iteration of the reconciliation loop of `run_index_only`
(src/main.cpp:674-680), which counts but builds no worklist. -/
def reconcileIdxStep (includes excludes existing : List (List Char))
    (acc : Nat × Nat × Nat) (name : List Char) : Nat × Nat × Nat :=
  if passes_filters name includes excludes then
    if name ∈ existing then (acc.1 + 1, acc.2.1 + 1, acc.2.2)
    else (acc.1 + 1, acc.2.1, acc.2.2 + 1)
  else acc

/-- The reconciliation counting loop of `run_index_only`
(src/main.cpp:674-680): (after-filter, already-have, to-download). -/
def reconcile_index (availNames includes excludes existing : List (List Char)) :
    Nat × Nat × Nat :=
  availNames.foldl (reconcileIdxStep includes excludes existing) (0, 0, 0)

lemma reconcile_fold_inv (includes excludes existing : List (List Char)) :
    ∀ (l : List (List Char)) (acc : Recon),
      (l.foldl (reconcileStep includes excludes existing) acc).alreadyHave
        + (l.foldl (reconcileStep includes excludes existing) acc).toDownload
        + acc.afterFilters
      = (l.foldl (reconcileStep includes excludes existing) acc).afterFilters
        + acc.alreadyHave + acc.toDownload ∧
      (l.foldl (reconcileStep includes excludes existing) acc).toGet.length
        + acc.toDownload
      = (l.foldl (reconcileStep includes excludes existing) acc).toDownload
        + acc.toGet.length := by
  intro l
  induction l with
  | nil => intro acc; simp only [List.foldl_nil]; omega
  | cons name rest ih =>
      intro acc
      have h := ih (reconcileStep includes excludes existing acc name)
      simp only [List.foldl_cons] at *
      unfold reconcileStep at h ⊢
      by_cases hp : passes_filters name includes excludes
      · by_cases he : name ∈ existing
        · simp only [hp, he, if_true, if_pos] at h ⊢
          omega
        · simp only [hp, he, if_true, if_false, if_pos, if_neg, not_false_iff] at h ⊢
          constructor
          · omega
          · simp at h ⊢
            omega
      · simp only [hp, if_neg, not_false_iff] at h ⊢
        exact h

lemma reconcile_idx_fold_inv (includes excludes existing : List (List Char)) :
    ∀ (l : List (List Char)) (acc : Nat × Nat × Nat),
      (l.foldl (reconcileIdxStep includes excludes existing) acc).2.1
        + (l.foldl (reconcileIdxStep includes excludes existing) acc).2.2
        + acc.1
      = (l.foldl (reconcileIdxStep includes excludes existing) acc).1
        + acc.2.1 + acc.2.2 := by
  intro l
  induction l with
  | nil => intro acc; simp only [List.foldl_nil]; omega
  | cons name rest ih =>
      intro acc
      have h := ih (reconcileIdxStep includes excludes existing acc name)
      simp only [List.foldl_cons] at *
      unfold reconcileIdxStep at h ⊢
      by_cases hp : passes_filters name includes excludes
      · by_cases he : name ∈ existing
        · simp only [hp, he, if_true, if_pos] at h ⊢
          omega
        · simp only [hp, he, if_true, if_false, if_pos, if_neg, not_false_iff] at h ⊢
          omega
      · simp only [hp, if_neg, not_false_iff] at h ⊢
        exact h

/-- C7: in both `run_pipeline` and `run_index_only`, after reconciliation the
already-present count plus the requiring-download count equals the
after-filter count, and in the full pipeline the download worklist `to_get`
has exactly the requiring-download length. -/
theorem reconciliation_counts_contract
    (availNames includes excludes existing : List (List Char)) :
    (reconcile availNames includes excludes existing).alreadyHave
      + (reconcile availNames includes excludes existing).toDownload
      = (reconcile availNames includes excludes existing).afterFilters ∧
    (reconcile availNames includes excludes existing).toGet.length
      = (reconcile availNames includes excludes existing).toDownload ∧
    (reconcile_index availNames includes excludes existing).2.1
      + (reconcile_index availNames includes excludes existing).2.2
      = (reconcile_index availNames includes excludes existing).1 := by
  have h := reconcile_fold_inv includes excludes existing availNames ⟨0, 0, 0, []⟩
  have h2 := reconcile_idx_fold_inv includes excludes existing availNames (0, 0, 0)
  unfold reconcile reconcile_index
  refine ⟨?_, ?_, ?_⟩
  · have := h.1
    simpa using this
  · have := h.2
    simpa using this
  · simpa using h2

/-- C4 (amended): `pick_best_source` returns `none` iff the input is empty;
otherwise it returns a member of the input attaining the minimal effective
latency, where the effective latency of a source is its last-observed latency
when non-negative and the sentinel `1000000` otherwise; the first source
attaining the minimum wins ties (every earlier source has a strictly larger
key); and whenever some offered source has a non-negative latency below the
sentinel `1000000`, the returned source also has a non-negative latency. -/
theorem pick_best_source_contract (srcs : List SourceEntry) :
    (pick_best_source srcs = none ↔ srcs = []) ∧
    (∀ s, pick_best_source srcs = some s →
      s ∈ srcs ∧
      (∀ t ∈ srcs, latKey s ≤ latKey t) ∧
      (∃ pre post, srcs = pre ++ s :: post ∧ ∀ t ∈ pre, latKey s < latKey t) ∧
      (∀ t ∈ srcs, 0 ≤ t.last_latency_ms → t.last_latency_ms < 1000000 →
        0 ≤ s.last_latency_ms)) := by
  cases srcs with
  | nil =>
      refine ⟨by simp [pick_best_source, pickGo], ?_⟩
      intro s hs
      simp [pick_best_source, pickGo] at hs
  | cons s0 rest =>
      obtain ⟨m, pre, post, hrun, hdec, hpre, hmin⟩ := pickGo_spec rest s0
      have hpick : pick_best_source (s0 :: rest) = some m := by
        simpa [pick_best_source, pickGo] using hrun
      constructor
      · simp [hpick]
      · intro s hs
        rw [hpick] at hs
        have hms : m = s := by injection hs
        subst hms
        have hmem : m ∈ s0 :: rest := by
          rw [hdec]
          exact List.mem_append.mpr (Or.inr (by simp))
        refine ⟨hmem, hmin, ⟨pre, post, hdec, hpre⟩, ?_⟩
        intro t ht h0 hlt1e6
        have hkey : latKey m ≤ latKey t := hmin t ht
        have hkt : latKey t = t.last_latency_ms := by
          unfold latKey
          simp [h0]
        by_contra hneg
        have : latKey m = 1000000 := by
          unfold latKey
          rw [if_neg]
          omega
        omega

/-- A source that has never been successfully timed: latency `-1`. -/
def srcNegLat : SourceEntry := ⟨"a".toList, true, -1, false⟩

/-- A source with a real observed latency of exactly 1000000 ms. -/
def srcBigLat : SourceEntry := ⟨"b".toList, true, 1000000, true⟩

/-- C4 counterexample: the claim says any source with a non-negative latency
beats every source with latency `-1`, but with the set
`[srcNegLat (latency -1), srcBigLat (latency 1000000)]` the function returns
the `-1` source: the sentinel is exactly `1000000`, so a source whose real
latency is `1000000` (or more) does not beat an unknown-latency source. -/
theorem pick_best_source_cex :
    pick_best_source [srcNegLat, srcBigLat] = some srcNegLat ∧
    srcNegLat.last_latency_ms = -1 ∧
    0 ≤ srcBigLat.last_latency_ms ∧
    srcBigLat ∈ [srcNegLat, srcBigLat] ∧
    srcNegLat ≠ srcBigLat := by
  refine ⟨?_, rfl, by decide, by simp, by decide⟩
  rfl

/-- Witness for C4: the amended theorem applied at a concrete non-empty input,
with the `pick_best_source ... = some ...` hypothesis discharged by
evaluation. -/
theorem pick_best_source_contract_witness :
    srcBigLat ∈ [srcBigLat, srcNegLat] ∧ latKey srcBigLat ≤ latKey srcNegLat := by
  have h := (pick_best_source_contract [srcBigLat, srcNegLat]).2 srcBigLat (by rfl)
  exact ⟨h.1, h.2.1 srcNegLat (by simp)⟩

/-- `url_join` from src/main.cpp:373: absolute targets pass through; otherwise
join base and relative part, collapsing or inserting one `/` at the seam. -/
def url_join (base rel : List Char) : List Char :=
  if ("http://".toList).isPrefixOf rel ∨ ("https://".toList).isPrefixOf rel then rel
  else if base = [] then rel
  else if base.getLast? = some '/' ∧ rel.head? = some '/' then base ++ rel.tail
  else if base.getLast? ≠ some '/' ∧ rel ≠ [] ∧ rel.head? ≠ some '/' then
    base ++ '/' :: rel
  else base ++ rel

/-- `fs::path(u).filename()` as used on URLs (src/main.cpp:569): the part of
the string after the last `/` (generic-format separator). -/
def filenameOf (u : List Char) : List Char :=
  (u.reverse.takeWhile (fun c => ¬ c = '/')).reverse

/-- Inner loop of `std::unique`: `prev` is the last kept element; equal
neighbours are dropped, a differing element is kept and becomes `prev`. -/
def eraADgo (prev : List Char) : List (List Char) → List (List Char)
  | [] => []
  | b :: rest => if b = prev then eraADgo prev rest else b :: eraADgo b rest

/-- `out.erase(std::unique(out.begin(), out.end()), out.end())` from
src/main.cpp:393: removes only ADJACENT duplicate elements, keeping the first
of each run. -/
def eraseAdjacentDups : List (List Char) → List (List Char)
  | [] => []
  | a :: rest => a :: eraADgo a rest

/-- Body of the href scan in `extract_map_links_from_index_html`
(src/main.cpp:384-392): trim the captured target, skip empty targets and
directory links (trailing `/`), keep lowercase-`.bsp`/`.bz2` targets joined
against the base URL. -/
def extractStep (base_url : List Char) (out : List (List Char))
    (href0 : List Char) : List (List Char) :=
  let href := trim href0
  if href = [] then out
  else if href.getLast? = some '/' then out
  else
    let low := lower_copy href
    if (".bsp".toList).isSuffixOf low ∨ (".bz2".toList).isSuffixOf low then
      out ++ [url_join base_url href]
    else out

/-- `extract_map_links_from_index_html` from src/main.cpp:381.  The regex scan
over the raw HTML is abstracted to the in-document-order list of captured
`href` attribute values; everything after the capture is modelled verbatim,
including the final adjacent-only `std::unique` pass. -/
def extract_map_links_from_index_html (base_url : List Char)
    (hrefs : List (List Char)) : List (List Char) :=
  eraseAdjacentDups (hrefs.foldl (extractStep base_url) [])

/-- `SourceIndex` from src/main.cpp:540; the `SourceEntry *src` pointer is
modelled as an optional index into an ambient entry table, `none` being the
null pointer. -/
structure SourceIndex where
  src : Option Nat
  links : List (List Char)
deriving Repr

/-- `availability[name].push_back(si.src)` on a `std::map`: if the key is
present append to its vector, otherwise create a single-element entry. -/
def availInsert : List (List Char × List Nat) → List Char → Nat →
    List (List Char × List Nat)
  | [], name, sid => [(name, [sid])]
  | (k, v) :: rest, name, sid =>
      if k = name then (k, v ++ [sid]) :: rest
      else (k, v) :: availInsert rest name sid

/-- `build_availability` from src/main.cpp:563: sources that are null,
disabled, or whose last index attempt failed contribute nothing; otherwise
every link is registered under its bare filename.  (The `std::map` key order
is not modelled; no claim depends on key iteration order.) -/
def build_availability (entries : Nat → SourceEntry)
    (indexed : List SourceIndex) : List (List Char × List Nat) :=
  indexed.foldl (fun m si =>
    match si.src with
    | none => m
    | some sid =>
      if (entries sid).enabled && (entries sid).last_ok then
        si.links.foldl (fun m2 u => availInsert m2 (filenameOf u) sid) m
      else m) []

/-- Lookup of one availability-map entry (absent key yields the empty set). -/
def availLookup (m : List (List Char × List Nat)) (name : List Char) : List Nat :=
  match m with
  | [] => []
  | (k, v) :: rest => if k = name then v else availLookup rest name

/-- What one `SourceIndex` contributes to the availability entry of `name`:
one copy of its source id per link whose bare filename is `name`, provided the
source is non-null, enabled and had a successful last index attempt. -/
def contribOf (entries : Nat → SourceEntry) (name : List Char)
    (si : SourceIndex) : List Nat :=
  match si.src with
  | none => []
  | some sid =>
    if (entries sid).enabled && (entries sid).last_ok then
      (si.links.filter (fun u => filenameOf u = name)).map (fun _ => sid)
    else []

/-- Concatenated contributions of a list of `SourceIndex` records. -/
def contribsAll (entries : Nat → SourceEntry) (name : List Char) :
    List SourceIndex → List Nat
  | [] => []
  | si :: rest => contribOf entries name si ++ contribsAll entries name rest

lemma availLookup_insert (m : List (List Char × List Nat)) (k name : List Char)
    (sid : Nat) :
    availLookup (availInsert m k sid) name =
      if k = name then availLookup m name ++ [sid] else availLookup m name := by
  induction m with
  | nil =>
      by_cases h : k = name <;> simp [availInsert, availLookup, h]
  | cons kv rest ih =>
      obtain ⟨k0, v0⟩ := kv
      by_cases h0 : k0 = k
      · subst h0
        by_cases h1 : k0 = name <;> simp [availInsert, availLookup, h1]
      · by_cases h1 : k0 = name
        · subst h1
          have hkn : ¬ k = k0 := fun h => h0 h.symm
          simp [availInsert, availLookup, h0, hkn, ih]
        · simp [availInsert, availLookup, h0, h1, ih]

lemma availLookup_links_fold (name : List Char) (sid : Nat) :
    ∀ (links : List (List Char)) (m : List (List Char × List Nat)),
      availLookup (links.foldl (fun m2 u => availInsert m2 (filenameOf u) sid) m) name
        = availLookup m name
          ++ (links.filter (fun u => filenameOf u = name)).map (fun _ => sid) := by
  intro links
  induction links with
  | nil => intro m; simp
  | cons u rest ih =>
      intro m
      simp only [List.foldl_cons]
      rw [ih]
      by_cases h : filenameOf u = name
      · rw [availLookup_insert]
        simp [h]
      · rw [availLookup_insert]
        simp [h]

lemma availLookup_build_fold (entries : Nat → SourceEntry) (name : List Char) :
    ∀ (indexed : List SourceIndex) (m : List (List Char × List Nat)),
      availLookup (indexed.foldl (fun m si =>
        match si.src with
        | none => m
        | some sid =>
          if (entries sid).enabled && (entries sid).last_ok then
            si.links.foldl (fun m2 u => availInsert m2 (filenameOf u) sid) m
          else m) m) name
      = availLookup m name ++ contribsAll entries name indexed := by
  intro indexed
  induction indexed with
  | nil => intro m; simp [contribsAll]
  | cons si rest ih =>
      intro m
      simp only [List.foldl_cons]
      cases hsrc : si.src with
      | none =>
          rw [ih]
          simp [contribsAll, contribOf, hsrc]
      | some sid =>
          rw [ih]
          by_cases hel : ((entries sid).enabled && (entries sid).last_ok) = true
          · simp only [hel, if_true]
            rw [availLookup_links_fold name sid si.links m]
            simp [contribsAll, contribOf, hsrc, hel, List.append_assoc]
          · simp [hel, contribsAll, contribOf, hsrc]

lemma availLookup_build (entries : Nat → SourceEntry) (name : List Char)
    (indexed : List SourceIndex) :
    availLookup (build_availability entries indexed) name
      = contribsAll entries name indexed := by
  have h := availLookup_build_fold entries name indexed []
  simpa [build_availability, availLookup] using h

/-- A `SourceIndex` "offers" a filename when it is eligible (non-null source,
enabled, last index attempt ok) and some link's bare filename is that name. -/
def offersName (entries : Nat → SourceEntry) (name : List Char)
    (si : SourceIndex) : Bool :=
  (match si.src with
   | none => false
   | some sid => (entries sid).enabled && (entries sid).last_ok)
  && decide (name ∈ si.links.map filenameOf)

lemma contribOf_none (entries : Nat → SourceEntry) (name : List Char)
    (si : SourceIndex) (hsrc : si.src = none) :
    contribOf entries name si = [] := by
  unfold contribOf
  rw [hsrc]

lemma contribOf_some (entries : Nat → SourceEntry) (name : List Char)
    (si : SourceIndex) (sid : Nat) (hsrc : si.src = some sid) :
    contribOf entries name si =
      if (entries sid).enabled && (entries sid).last_ok then
        (si.links.filter (fun u => filenameOf u = name)).map (fun _ => sid)
      else [] := by
  unfold contribOf
  rw [hsrc]

lemma filter_length_of_nodup (name : List Char) :
    ∀ l : List (List Char), (l.map filenameOf).Nodup →
      (l.filter (fun u => filenameOf u = name)).length
        = if name ∈ l.map filenameOf then 1 else 0 := by
  intro l
  induction l with
  | nil => intro _; simp
  | cons u rest ih =>
      intro hnd
      simp only [List.map_cons, List.nodup_cons] at hnd
      obtain ⟨hnotin, hnd'⟩ := hnd
      by_cases h : filenameOf u = name
      · have hnamenotin : name ∉ rest.map filenameOf := by
          rw [← h]; exact hnotin
        have h0 : (rest.filter (fun u => filenameOf u = name)).length = 0 := by
          rw [ih hnd']
          simp [hnamenotin]
        simp [List.filter_cons, h, h0, List.mem_cons]
      · have hne : ¬ name = filenameOf u := fun hh => h hh.symm
        simp [List.filter_cons, h, ih hnd', List.mem_cons, hne]

lemma contribOf_length (entries : Nat → SourceEntry) (name : List Char)
    (si : SourceIndex) (hnd : (si.links.map filenameOf).Nodup) :
    (contribOf entries name si).length
      = if offersName entries name si then 1 else 0 := by
  cases hsrc : si.src with
  | none =>
      rw [contribOf_none entries name si hsrc]
      simp [offersName, hsrc]
  | some sid =>
      rw [contribOf_some entries name si sid hsrc]
      by_cases hel : ((entries sid).enabled && (entries sid).last_ok) = true
      · simp only [hel, if_true, List.length_map]
        rw [filter_length_of_nodup name si.links hnd]
        by_cases hmem : name ∈ si.links.map filenameOf <;>
          simp [offersName, hsrc, hel, hmem]
      · simp [offersName, hsrc, hel]

lemma contribOf_shape (entries : Nat → SourceEntry) (name : List Char)
    (si : SourceIndex) (hnd : (si.links.map filenameOf).Nodup) :
    contribOf entries name si = []
      ∨ ∃ sid, si.src = some sid ∧ contribOf entries name si = [sid] := by
  have hlen := contribOf_length entries name si hnd
  by_cases hoff : offersName entries name si = true
  · right
    rw [if_pos hoff] at hlen
    cases hsrc : si.src with
    | none =>
        exfalso
        rw [contribOf_none entries name si hsrc] at hlen
        simp at hlen
    | some sid =>
        refine ⟨sid, rfl, ?_⟩
        rw [contribOf_some entries name si sid hsrc] at hlen ⊢
        rcases h : (entries sid).enabled && (entries sid).last_ok with _ | _
        · exfalso
          simp [offersName, hsrc, h] at hoff
        · rw [if_pos h] at hlen
          rw [if_pos rfl]
          rcases hfl : (si.links.filter (fun u => filenameOf u = name)).map
              (fun _ => sid) with _ | ⟨x, xs⟩
          · rw [hfl] at hlen; simp at hlen
          · rw [hfl] at hlen
            simp only [List.length_cons] at hlen
            have hl0 : xs.length = 0 := by omega
            have hxs : xs = [] := List.length_eq_zero.mp hl0
            have hmem : x ∈ (si.links.filter (fun u => filenameOf u = name)).map
                (fun _ => sid) := by rw [hfl]; simp
            obtain ⟨u, hu, hux⟩ := List.mem_map.mp hmem
            rw [hxs, hux.symm]
  · left
    rw [if_neg hoff] at hlen
    exact List.length_eq_zero.mp hlen

lemma contribsAll_length (entries : Nat → SourceEntry) (name : List Char) :
    ∀ indexed : List SourceIndex,
      (∀ si ∈ indexed, (si.links.map filenameOf).Nodup) →
      (contribsAll entries name indexed).length
        = (indexed.filter (offersName entries name)).length := by
  intro indexed
  induction indexed with
  | nil => intro _; simp [contribsAll]
  | cons si rest ih =>
      intro hnd
      have hsi := hnd si (by simp)
      have hrest : ∀ s ∈ rest, (s.links.map filenameOf).Nodup := by
        intro s hs; exact hnd s (List.mem_cons_of_mem _ hs)
      simp only [contribsAll, List.length_append, List.filter_cons]
      rw [ih hrest, contribOf_length entries name si hsi]
      by_cases hoff : offersName entries name si = true
      · simp only [hoff, if_true, List.length_cons]
        omega
      · simp [hoff]

lemma contribsAll_sublist (entries : Nat → SourceEntry) (name : List Char) :
    ∀ indexed : List SourceIndex,
      (∀ si ∈ indexed, (si.links.map filenameOf).Nodup) →
      (contribsAll entries name indexed).Sublist
        (indexed.filterMap SourceIndex.src) := by
  intro indexed
  induction indexed with
  | nil => intro _; simp [contribsAll]
  | cons si rest ih =>
      intro hnd
      have hsi := hnd si (by simp)
      have hrest : ∀ s ∈ rest, (s.links.map filenameOf).Nodup := by
        intro s hs; exact hnd s (List.mem_cons_of_mem _ hs)
      have htail := ih hrest
      rcases contribOf_shape entries name si hsi with h | ⟨sid, hsrc, h⟩
      · simp only [contribsAll, h, List.nil_append, List.filterMap_cons]
        cases hsrc : si.src with
        | none => exact htail
        | some sid => exact htail.cons sid
      · simp only [contribsAll, h, List.filterMap_cons, hsrc, List.cons_append,
          List.nil_append]
        exact htail.cons₂ sid

lemma eraADgo_chain (l : List (List Char)) :
    ∀ prev, List.Chain' (fun a b => a ≠ b) (prev :: eraADgo prev l) := by
  induction l with
  | nil => intro prev; simp [eraADgo]
  | cons b rest ih =>
      intro prev
      by_cases h : b = prev
      · simpa [eraADgo, h] using ih prev
      · have hrest := ih b
        simp only [eraADgo, h, if_neg, not_false_iff]
        exact List.chain'_cons.mpr ⟨fun he => h he.symm, hrest⟩

lemma eraseAdjacentDups_chain (l : List (List Char)) :
    List.Chain' (fun a b => a ≠ b) (eraseAdjacentDups l) := by
  cases l with
  | nil => simp [eraseAdjacentDups]
  | cons a rest => exact eraADgo_chain rest a

/-- C6: every source id appearing in any entry of the availability map built
by `build_availability` refers to a source that is enabled and whose last
index attempt succeeded; disabled or failed sources contribute nothing. -/
theorem availability_sources_eligible (entries : Nat → SourceEntry)
    (indexed : List SourceIndex) (name : List Char) (sid : Nat)
    (h : sid ∈ availLookup (build_availability entries indexed) name) :
    (entries sid).enabled = true ∧ (entries sid).last_ok = true := by
  rw [availLookup_build] at h
  induction indexed with
  | nil => simp [contribsAll] at h
  | cons si rest ih =>
      simp only [contribsAll, List.mem_append] at h
      rcases h with h | h
      · cases hsrc : si.src with
        | none =>
            rw [contribOf_none entries name si hsrc] at h
            simp at h
        | some sid0 =>
            rw [contribOf_some entries name si sid0 hsrc] at h
            by_cases hel : ((entries sid0).enabled && (entries sid0).last_ok) = true
            · rw [if_pos hel] at h
              obtain ⟨u, hu, hux⟩ := List.mem_map.mp h
              obtain ⟨he, ho⟩ := Bool.and_eq_true_iff.mp hel
              rw [← hux]
              exact ⟨he, ho⟩
            · rw [if_neg hel] at h
              simp at h
      · exact ih h

/-- Witness for C6: a concrete enabled, successfully indexed source offering
`a.bsp`; its id is a member of the built availability entry, and the theorem
yields its eligibility. -/
theorem availability_sources_eligible_witness :
    ((fun _ => SourceEntry.mk ("u".toList) true 5 true) 0).enabled = true ∧
    ((fun _ => SourceEntry.mk ("u".toList) true 5 true) 0).last_ok = true :=
  availability_sources_eligible
    (fun _ => SourceEntry.mk ("u".toList) true 5 true)
    [SourceIndex.mk (some 0) ["a.bsp".toList]]
    ("a.bsp".toList) 0 (by decide)

/-- C2 (amended): the link list produced for one source contains no two
ADJACENT equal links (the dedup pass is `std::unique` on the unsorted list,
so only consecutive duplicates are removed and first-seen order is
preserved); and for every availability map built from IndexResults whose link
lists yield pairwise-distinct bare filenames and whose source pointers are
pairwise distinct, the entry for a filename has exactly one member per
offering eligible source, each member a distinct source. -/
theorem extract_and_availability_contract :
    (∀ (base_url : List Char) (hrefs : List (List Char)),
      List.Chain' (fun a b => a ≠ b)
        (extract_map_links_from_index_html base_url hrefs)) ∧
    (∀ (entries : Nat → SourceEntry) (indexed : List SourceIndex)
        (name : List Char),
      (∀ si ∈ indexed, (si.links.map filenameOf).Nodup) →
      (indexed.filterMap SourceIndex.src).Nodup →
      (availLookup (build_availability entries indexed) name).length
        = (indexed.filter (offersName entries name)).length ∧
      (availLookup (build_availability entries indexed) name).Nodup) := by
  constructor
  · intro base_url hrefs
    exact eraseAdjacentDups_chain (hrefs.foldl (extractStep base_url) [])
  · intro entries indexed name hnd hsrc
    rw [availLookup_build]
    exact ⟨contribsAll_length entries name indexed hnd,
      (contribsAll_sublist entries name indexed hnd).nodup hsrc⟩

/-- C2 counterexample: for the HTML anchor targets
`a.bsp`, `b.bsp`, `a.bsp` (in that order) against base `http://x/`, the
produced link list contains `http://x/a.bsp` twice — the claim that the list
contains no duplicate links is false, because `std::unique` without sorting
removes only adjacent duplicates. -/
theorem extract_dedup_cex :
    extract_map_links_from_index_html ("http://x/".toList)
        ["a.bsp".toList, "b.bsp".toList, "a.bsp".toList]
      = ["http://x/a.bsp".toList, "http://x/b.bsp".toList,
         "http://x/a.bsp".toList] ∧
    ¬ (extract_map_links_from_index_html ("http://x/".toList)
        ["a.bsp".toList, "b.bsp".toList, "a.bsp".toList]).Nodup := by
  constructor
  · decide
  · decide

/-- Witness for C2: the amended theorem applied to two distinct eligible
sources both offering `m.bsp`, with both hypotheses discharged by evaluation;
the availability entry then has exactly two members. -/
theorem extract_and_availability_contract_witness :
    (availLookup (build_availability
        (fun _ => SourceEntry.mk ("u".toList) true 3 true)
        [SourceIndex.mk (some 0) ["m.bsp".toList],
         SourceIndex.mk (some 1) ["m.bsp".toList]]) ("m.bsp".toList)).length
      = ([SourceIndex.mk (some 0) ["m.bsp".toList],
          SourceIndex.mk (some 1) ["m.bsp".toList]].filter
          (offersName (fun _ => SourceEntry.mk ("u".toList) true 3 true)
            ("m.bsp".toList))).length ∧
    (availLookup (build_availability
        (fun _ => SourceEntry.mk ("u".toList) true 3 true)
        [SourceIndex.mk (some 0) ["m.bsp".toList],
         SourceIndex.mk (some 1) ["m.bsp".toList]]) ("m.bsp".toList)).Nodup :=
  (extract_and_availability_contract).2
    (fun _ => SourceEntry.mk ("u".toList) true 3 true)
    [SourceIndex.mk (some 0) ["m.bsp".toList],
     SourceIndex.mk (some 1) ["m.bsp".toList]]
    ("m.bsp".toList) (by decide) (by decide)

/-- The character loop of `split_csv_terms` (src/main.cpp:51-63): `cur`
accumulates non-comma characters; at a comma and at the end of input the
current chunk is trimmed, dropped if empty, lowercased and emitted. -/
def scGo : List Char → List Char → List (List Char)
  | [], cur =>
    let c := trim cur
    if c = [] then [] else [lower_copy c]
  | ch :: rest, cur =>
    if ch = ',' then
      let c := trim cur
      if c = [] then scGo rest [] else lower_copy c :: scGo rest []
    else scGo rest (cur ++ [ch])

/-- `split_csv_terms` from src/main.cpp:46: trim the whole specification
string, return nothing if it is empty, else run the comma loop. -/
def split_csv_terms (s : List Char) : List (List Char) :=
  let t := trim s
  if t = [] then [] else scGo t []

/-- Plain comma-splitting, as the specification words it: the list of
(possibly empty) segments of the string between commas. -/
def csvSplit : List Char → List (List Char)
  | [] => [[]]
  | c :: rest =>
    let s := csvSplit rest
    if c = ',' then [] :: s
    else (c :: s.headI) :: s.tail

/-- Tokenization in the specification's words: comma-split, trim each token,
drop empty tokens, lowercase (for case-insensitive matching). -/
def csvTokens (s : List Char) : List (List Char) :=
  (((csvSplit s).map trim).filter (fun t => !t.isEmpty)).map lower_copy

/-- Replace only the last element of a list of segments. -/
def modLast (f : List Char → List Char) : List (List Char) → List (List Char)
  | [] => []
  | [a] => [f a]
  | a :: b :: rest => a :: modLast f (b :: rest)

lemma csvSplit_ne_nil (t : List Char) : csvSplit t ≠ [] := by
  cases t with
  | nil => simp [csvSplit]
  | cons c rest =>
      by_cases h : c = ',' <;> simp [csvSplit, h]

lemma csvSplit_no_comma (t : List Char) (h : ',' ∉ t) : csvSplit t = [t] := by
  induction t with
  | nil => rfl
  | cons c rest ih =>
      have hc : ¬ c = ',' := fun hh => h (by simp [hh])
      have hrest : ',' ∉ rest := fun hh => h (List.mem_cons_of_mem _ hh)
      simp [csvSplit, hc, ih hrest]

lemma csvSplit_comma_append (a r : List Char) (h : ',' ∉ a) :
    csvSplit (a ++ ',' :: r) = a :: csvSplit r := by
  induction a with
  | nil => simp [csvSplit]
  | cons c a2 ih =>
      have hc : ¬ c = ',' := fun hh => h (by simp [hh])
      have ha2 : ',' ∉ a2 := fun hh => h (List.mem_cons_of_mem _ hh)
      simp [csvSplit, hc, ih ha2]

lemma csvSplit_append_nocomma (b : List Char) (hb : ',' ∉ b) :
    ∀ a : List Char, csvSplit (a ++ b) = modLast (fun x => x ++ b) (csvSplit a) := by
  intro a
  induction a with
  | nil =>
      simp only [List.nil_append, csvSplit, modLast]
      exact csvSplit_no_comma b hb
  | cons c a2 ih =>
      rcases h2 : csvSplit a2 with _ | ⟨seg, segs⟩
      · exact absurd h2 (csvSplit_ne_nil a2)
      · by_cases hc : c = ','
        · subst hc
          simp [csvSplit, ih, h2, modLast]
        · cases segs with
          | nil => simp [csvSplit, hc, ih, h2, modLast]
          | cons s2 segs2 => simp [csvSplit, hc, ih, h2, modLast]

lemma space_ne_comma (c : Char) (h : isSpaceAscii c = true) : ¬ c = ',' := by
  intro hc
  subst hc
  simp [isSpaceAscii] at h

lemma dropWhile_append_all (p : Char → Bool) (l r : List Char)
    (h : ∀ c ∈ l, p c = true) :
    List.dropWhile p (l ++ r) = List.dropWhile p r := by
  induction l with
  | nil => simp
  | cons c l2 ih =>
      have hc : p c = true := h c (by simp)
      have hl2 : ∀ c ∈ l2, p c = true := fun c hcm => h c (List.mem_cons_of_mem _ hcm)
      simp [List.dropWhile_cons, hc, ih hl2]

lemma dropWhile_append_of_ne_nil (p : Char → Bool) (x w : List Char)
    (hx : List.dropWhile p x ≠ []) :
    List.dropWhile p (x ++ w) = List.dropWhile p x ++ w := by
  induction x with
  | nil => simp at hx
  | cons c x2 ih =>
      by_cases hc : p c = true
      · have hx2 : List.dropWhile p x2 ≠ [] := by
          simpa [List.dropWhile_cons, hc] using hx
        simp [List.dropWhile_cons, hc, ih hx2]
      · simp [List.dropWhile_cons, hc]

lemma dropWhile_eq_nil_of_all (p : Char → Bool) (l : List Char)
    (h : ∀ c ∈ l, p c = true) : List.dropWhile p l = [] := by
  induction l with
  | nil => simp
  | cons c l2 ih =>
      have hc : p c = true := h c (by simp)
      have hl2 : ∀ c ∈ l2, p c = true := fun c hcm => h c (List.mem_cons_of_mem _ hcm)
      simp [List.dropWhile_cons, hc, ih hl2]

lemma dropTrail_append_space (y w : List Char)
    (h : ∀ c ∈ w, isSpaceAscii c = true) :
    dropTrail (y ++ w) = dropTrail y := by
  unfold dropTrail
  rw [List.reverse_append]
  rw [dropWhile_append_all isSpaceAscii w.reverse y.reverse
    (fun c hc => h c (List.mem_reverse.mp hc))]

lemma trim_append_space (x w : List Char)
    (h : ∀ c ∈ w, isSpaceAscii c = true) :
    trim (x ++ w) = trim x := by
  unfold trim
  by_cases hx : List.dropWhile isSpaceAscii x = []
  · rw [hx]
    have hxall : ∀ c ∈ x, isSpaceAscii c = true := by
      intro c hc
      by_contra hcn
      exact absurd (List.dropWhile_eq_nil_iff.mp hx c hc) hcn
    rw [dropWhile_append_all isSpaceAscii x w hxall,
      dropWhile_eq_nil_of_all isSpaceAscii w h]
  · rw [dropWhile_append_of_ne_nil isSpaceAscii x w hx,
      dropTrail_append_space _ w h]

lemma trim_cons_space (c : Char) (s : List Char) (h : isSpaceAscii c = true) :
    trim (c :: s) = trim s := by
  unfold trim
  simp [List.dropWhile_cons, h]

lemma map_trim_modLast (w : List Char) (h : ∀ x, trim (x ++ w) = trim x) :
    ∀ L : List (List Char),
      (modLast (fun x => x ++ w) L).map trim = L.map trim := by
  intro L
  induction L with
  | nil => rfl
  | cons a t ih =>
      cases t with
      | nil => simp [modLast, h a]
      | cons b t2 =>
          simp only [modLast, List.map_cons]
          rw [show (modLast (fun x => x ++ w) (b :: t2)).map trim
              = (b :: t2).map trim from ih]
          simp

lemma csvTokens_append_space (u w : List Char)
    (h : ∀ c ∈ w, isSpaceAscii c = true) :
    csvTokens (u ++ w) = csvTokens u := by
  unfold csvTokens
  have hw : ',' ∉ w := fun hc => space_ne_comma ',' (h ',' hc) rfl
  rw [csvSplit_append_nocomma w hw u]
  rw [map_trim_modLast w (fun x => trim_append_space x w h) (csvSplit u)]

lemma csvTokens_cons_space (c : Char) (s : List Char)
    (h : isSpaceAscii c = true) :
    csvTokens (c :: s) = csvTokens s := by
  unfold csvTokens
  have hc : ¬ c = ',' := space_ne_comma c h
  rcases h2 : csvSplit s with _ | ⟨seg, segs⟩
  · exact absurd h2 (csvSplit_ne_nil s)
  · simp [csvSplit, hc, h2, trim_cons_space c seg h]

lemma csvTokens_dropWhile (s : List Char) :
    csvTokens (s.dropWhile isSpaceAscii) = csvTokens s := by
  induction s with
  | nil => rfl
  | cons c s2 ih =>
      by_cases hc : isSpaceAscii c = true
      · rw [List.dropWhile_cons]
        simp only [hc, if_true]
        rw [ih, csvTokens_cons_space c s2 hc]
      · rw [List.dropWhile_cons]
        simp [hc]

lemma dropTrail_decomp (s : List Char) :
    s = dropTrail s ++ (s.reverse.takeWhile isSpaceAscii).reverse ∧
    (∀ c ∈ (s.reverse.takeWhile isSpaceAscii).reverse, isSpaceAscii c = true) := by
  constructor
  · have h1 : s.reverse.takeWhile isSpaceAscii ++ s.reverse.dropWhile isSpaceAscii
        = s.reverse := List.takeWhile_append_dropWhile isSpaceAscii s.reverse
    have h2 := congrArg List.reverse h1
    rw [List.reverse_append, List.reverse_reverse] at h2
    exact h2.symm
  · intro c hc
    rw [List.mem_reverse] at hc
    exact List.mem_takeWhile_imp hc

lemma csvTokens_dropTrail (s : List Char) :
    csvTokens (dropTrail s) = csvTokens s := by
  obtain ⟨hdec, hall⟩ := dropTrail_decomp s
  conv_rhs => rw [hdec]
  rw [csvTokens_append_space _ _ hall]

lemma csvTokens_trim (s : List Char) : csvTokens (trim s) = csvTokens s := by
  unfold trim
  rw [csvTokens_dropTrail, csvTokens_dropWhile]

lemma csvTokens_nil : csvTokens [] = [] := rfl

lemma csvTokens_comma_append (cur rest : List Char) (hcur : ',' ∉ cur) :
    csvTokens (cur ++ ',' :: rest)
      = (if trim cur = [] then [] else [lower_copy (trim cur)]) ++ csvTokens rest := by
  unfold csvTokens
  rw [csvSplit_comma_append cur rest hcur]
  by_cases h : trim cur = []
  · simp [h]
  · simp only [List.map_cons, List.filter_cons]
    have : (!(trim cur).isEmpty) = true := by
      simp [List.isEmpty_iff, h]
    simp [this, h]

lemma csvTokens_single (cur : List Char) (hcur : ',' ∉ cur) :
    csvTokens cur = if trim cur = [] then [] else [lower_copy (trim cur)] := by
  unfold csvTokens
  rw [csvSplit_no_comma cur hcur]
  by_cases h : trim cur = []
  · simp [h]
  · have : (!(trim cur).isEmpty) = true := by
      simp [List.isEmpty_iff, h]
    simp [this, h]

lemma scGo_eq (l : List Char) :
    ∀ cur : List Char, ',' ∉ cur → scGo l cur = csvTokens (cur ++ l) := by
  induction l with
  | nil =>
      intro cur hcur
      rw [List.append_nil]
      rw [csvTokens_single cur hcur]
      rfl
  | cons ch rest ih =>
      intro cur hcur
      by_cases hch : ch = ','
      · subst hch
        rw [csvTokens_comma_append cur rest hcur]
        have h0 : scGo rest [] = csvTokens rest := by
          have := ih [] (by simp)
          simpa using this
        by_cases h : trim cur = []
        · simp [scGo, h, h0]
        · simp [scGo, h, h0]
      · have hcur2 : ',' ∉ cur ++ [ch] := by
          intro hm
          rcases List.mem_append.mp hm with hm | hm
          · exact hcur hm
          · simp at hm
            exact hch hm.symm
        have h2 := ih (cur ++ [ch]) hcur2
        rw [List.append_assoc] at h2
        simp only [List.singleton_append] at h2
        simp [scGo, hch, h2]

/-- `split_csv_terms` computes exactly the specification's tokenization:
comma-split, trim each token, drop empty tokens, lowercase. -/
lemma split_csv_terms_eq_csvTokens (s : List Char) :
    split_csv_terms s = csvTokens s := by
  unfold split_csv_terms
  by_cases h : trim s = []
  · rw [← csvTokens_trim s, h, csvTokens_nil]
    simp [h]
  · simp only [h, if_neg, not_false_iff]
    rw [scGo_eq (trim s) [] (by simp)]
    rw [List.nil_append, csvTokens_trim]

lemma csvTokens_mem_ne_nil (s : List Char) : ∀ t ∈ csvTokens s, t ≠ [] := by
  intro t ht
  unfold csvTokens at ht
  obtain ⟨u, hu, hut⟩ := List.mem_map.mp ht
  have hne : u ≠ [] := by
    have := List.of_mem_filter hu
    simpa [List.isEmpty_iff] using this
  intro hnil
  apply hne
  rw [← hut] at hnil
  unfold lower_copy at hnil
  exact List.map_eq_nil_iff.mp hnil

lemma passes_filters_iff (filename : List Char) (L1 L2 : List (List Char))
    (h1 : ∀ t ∈ L1, t ≠ []) (h2 : ∀ t ∈ L2, t ≠ []) :
    passes_filters filename L1 L2 = true ↔
      ((L1 = [] ∨ ∃ t ∈ L1, strFind t (lower_copy filename) = true) ∧
       (∀ t ∈ L2, strFind t (lower_copy filename) = false)) := by
  have hexc : (L2.any (fun t => !t.isEmpty && strFind t (lower_copy filename)) = false)
      ↔ (∀ t ∈ L2, strFind t (lower_copy filename) = false) := by
    constructor
    · intro hno t ht
      rcases hf : strFind t (lower_copy filename) with _ | _
      · rfl
      · exfalso
        have hmem : L2.any (fun t => !t.isEmpty && strFind t (lower_copy filename)) = true := by
          rw [List.any_eq_true]
          refine ⟨t, ht, ?_⟩
          have hne : (!t.isEmpty) = true := by
            simpa [List.isEmpty_iff] using h2 t ht
          simp [hne, hf]
        rw [hno] at hmem
        exact Bool.false_ne_true hmem
    · intro hall
      rcases hany : L2.any (fun t => !t.isEmpty && strFind t (lower_copy filename))
          with _ | _
      · rfl
      · exfalso
        obtain ⟨t, ht, hconj⟩ := List.any_eq_true.mp hany
        obtain ⟨-, hf⟩ := Bool.and_eq_true_iff.mp hconj
        rw [hall t ht] at hf
        exact Bool.false_ne_true hf
  have hinc : (L1.any (fun t => !t.isEmpty && strFind t (lower_copy filename)) = true)
      ↔ (∃ t ∈ L1, strFind t (lower_copy filename) = true) := by
    rw [List.any_eq_true]
    constructor
    · rintro ⟨t, ht, hconj⟩
      obtain ⟨-, hf⟩ := Bool.and_eq_true_iff.mp hconj
      exact ⟨t, ht, hf⟩
    · rintro ⟨t, ht, hf⟩
      refine ⟨t, ht, ?_⟩
      have hne : (!t.isEmpty) = true := by
        simpa [List.isEmpty_iff] using h1 t ht
      simp [hne, hf]
  by_cases hL1 : L1 = []
  · subst hL1
    unfold passes_filters
    simp only [List.isEmpty_nil, if_true, Bool.not_true]
    rcases hany : L2.any (fun t => !t.isEmpty && strFind t (lower_copy filename))
        with _ | _
    · have hall := hexc.mp hany
      simp only [if_neg (by simp : ¬ false = true)]
      constructor
      · intro _
        exact ⟨Or.inl trivial, hall⟩
      · intro _
        trivial
    · simp only [if_pos rfl]
      constructor
      · intro hfalse
        exact absurd hfalse (by simp)
      · rintro ⟨-, hall⟩
        rw [hexc.mpr hall] at hany
        exact absurd hany (by simp)
  · have hL1e : L1.isEmpty = false := by
      simpa [List.isEmpty_iff] using hL1
    unfold passes_filters
    simp only [hL1e, if_false, Bool.false_eq_true]
    rcases hany1 : L1.any (fun t => !t.isEmpty && strFind t (lower_copy filename))
        with _ | _
    · simp only [Bool.not_false, if_pos rfl]
      constructor
      · intro hfalse
        exact absurd hfalse (by simp)
      · rintro ⟨hor, -⟩
        rcases hor with hnil | hex
        · exact absurd hnil hL1
        · rw [hinc.mpr hex] at hany1
          exact absurd hany1 (by simp)
    · simp only [Bool.not_true, if_neg (by simp : ¬ false = true)]
      rcases hany2 : L2.any (fun t => !t.isEmpty && strFind t (lower_copy filename))
          with _ | _
      · simp only [if_neg (by simp : ¬ false = true)]
        have hex := hinc.mp hany1
        have hall := hexc.mp hany2
        constructor
        · intro _
          exact ⟨Or.inr hex, hall⟩
        · intro _
          trivial
      · simp only [if_pos rfl]
        constructor
        · intro hfalse
          exact absurd hfalse (by simp)
        · rintro ⟨-, hall⟩
          rw [hexc.mpr hall] at hany2
          exact absurd hany2 (by simp)

/-- C5: for every filename and raw include/exclude specification strings,
`split_csv_terms` produces exactly the tokens described by the claim
(comma-split, trimmed, empty tokens dropped, lowercased), and
`passes_filters` on those token lists succeeds iff (the include token list is
empty OR the lowercased filename contains at least one include token) AND
(the lowercased filename contains no exclude token).  Both functions are pure
(the model is a function of its arguments only). -/
theorem passes_filters_spec (filename incSpec excSpec : List Char) :
    split_csv_terms incSpec = csvTokens incSpec ∧
    split_csv_terms excSpec = csvTokens excSpec ∧
    (passes_filters filename (split_csv_terms incSpec) (split_csv_terms excSpec)
        = true ↔
      ((csvTokens incSpec = [] ∨
        ∃ t ∈ csvTokens incSpec, strFind t (lower_copy filename) = true) ∧
       (∀ t ∈ csvTokens excSpec, strFind t (lower_copy filename) = false))) := by
  refine ⟨split_csv_terms_eq_csvTokens incSpec,
    split_csv_terms_eq_csvTokens excSpec, ?_⟩
  rw [split_csv_terms_eq_csvTokens incSpec, split_csv_terms_eq_csvTokens excSpec]
  exact passes_filters_iff filename (csvTokens incSpec) (csvTokens excSpec)
    (csvTokens_mem_ne_nil incSpec) (csvTokens_mem_ne_nil excSpec)

/-- Witness for C5: concrete filter specifications " dm ,xx" / "cs" and the
filename "DM_Lockdown.BSP"; the specification-side condition is decided by
evaluation, and the theorem transports it to `passes_filters`. -/
theorem passes_filters_spec_witness :
    passes_filters ("DM_Lockdown.BSP".toList)
      (split_csv_terms (" dm ,xx".toList)) (split_csv_terms ("cs".toList))
      = true :=
  (passes_filters_spec ("DM_Lockdown.BSP".toList) (" dm ,xx".toList)
      ("cs".toList)).2.2.mpr (by decide)

/-- One log line pushed by `download_file` (src/main.cpp:437,470,475),
abstracted to its kind. -/
inductive LogEntry where
  | retryMsg (attempt : Nat)
  | dlFailMsg
  | openFailMsg
deriving DecidableEq, Repr

/-- Observable filesystem / log state threaded through `download_file`:
the `.part` sibling, the destination (contents abstracted to a tag),
the live-log lines, the failure lines, and the number of transfers actually
performed (curl_easy_perform calls). -/
structure DlState where
  tmp : Option Nat
  dest : Option Nat
  lines : List LogEntry
  failures : List LogEntry
  attempts : Nat
deriving DecidableEq, Repr

/-- Environment of one download attempt, in the order the source observes it:
the cancellation flag at the loop head (src/main.cpp:427), whether the fopen
of the `.part` file succeeds (src/main.cpp:432-436), the transport result and
HTTP status of the transfer (src/main.cpp:447-451), the body tag written to
the `.part` file, and the cancellation flag read after the transfer
(src/main.cpp:454). -/
structure DlAttempt where
  cancelBefore : Bool
  openOk : Bool
  curlOk : Bool
  status : Int
  body : Nat
  cancelAfter : Bool

/-- The retry loop of `download_file` (src/main.cpp:427-477).  `fuel` is the
number of loop iterations still allowed (`retries - attempt + 1`), `attempt`
the 1-based attempt counter.  At the loop head a stale `.part` file is
removed; a failed fopen aborts with a failure line; a transfer with
`CURLE_OK` and 2xx status publishes the `.part` file to the destination
(rename, or copy+delete across filesystems — both leave the same state) and
returns true; observing cancellation after the transfer returns false at once
(the `.part` file stays); otherwise the `.part` file is removed and the loop
retries with a log line, or gives up with a failure line. -/
def dlGo (env : Nat → DlAttempt) : Nat → Nat → DlState → Bool × DlState
  | 0, _, st => (false, st)
  | fuel + 1, attempt, st =>
    let a := env attempt
    if a.cancelBefore then (false, st)
    else
      let st1 : DlState := { st with tmp := none }
      if a.openOk = false then
        (false, { st1 with failures := LogEntry.openFailMsg :: st1.failures })
      else
        let st2 : DlState :=
          { st1 with tmp := some a.body, attempts := st1.attempts + 1 }
        if a.cancelAfter then (false, st2)
        else if a.curlOk = true ∧ 200 ≤ a.status ∧ a.status < 300 then
          (true, { st2 with tmp := none, dest := some a.body })
        else
          let st3 : DlState := { st2 with tmp := none }
          if fuel = 0 then
            (false, { st3 with failures := LogEntry.dlFailMsg :: st3.failures })
          else
            dlGo env fuel (attempt + 1)
              { st3 with lines := LogEntry.retryMsg attempt :: st3.lines }

/-- `download_file` from src/main.cpp:420 (the `create_directories` call on
the destination's parent affects no modelled state).  A non-positive retry
budget runs zero loop iterations. -/
def download_file (env : Nat → DlAttempt) (retries : Int) (st : DlState) :
    Bool × DlState :=
  dlGo env retries.toNat 1 st

/-- An attempt that succeeds: not cancelled at either check, fopen ok,
transport ok with a 2xx status. -/
def goodA (a : DlAttempt) : Prop :=
  a.cancelBefore = false ∧ a.openOk = true ∧ a.cancelAfter = false ∧
  a.curlOk = true ∧ 200 ≤ a.status ∧ a.status < 300

/-- An attempt that fails cleanly (transport error or non-2xx status) and is
not interrupted: the loop proceeds to the next attempt. -/
def failCleanA (a : DlAttempt) : Prop :=
  a.cancelBefore = false ∧ a.openOk = true ∧ a.cancelAfter = false ∧
  ¬ (a.curlOk = true ∧ 200 ≤ a.status ∧ a.status < 300)

/-- Attempt `i` (counting from `lo`) is reached and succeeds: all earlier
attempts failed cleanly and attempt `i` is good. -/
def dlSucceedsAt (env : Nat → DlAttempt) (lo i : Nat) : Prop :=
  (∀ j, lo ≤ j → j < i → failCleanA (env j)) ∧ goodA (env i)

lemma dlGo_true_iff (env : Nat → DlAttempt) :
    ∀ (fuel attempt : Nat) (st : DlState),
      (dlGo env fuel attempt st).1 = true ↔
        ∃ i, attempt ≤ i ∧ i < attempt + fuel ∧ dlSucceedsAt env attempt i := by
  intro fuel
  induction fuel with
  | zero =>
      intro attempt st
      constructor
      · intro h
        simp [dlGo] at h
      · rintro ⟨i, h1, h2, -⟩
        omega
  | succ f ih =>
      intro attempt st
      by_cases hcb : (env attempt).cancelBefore = true
      · have hres : dlGo env (f + 1) attempt st = (false, st) := by
          simp [dlGo, hcb]
        rw [hres]
        constructor
        · intro h
          simp at h
        · rintro ⟨i, hle, hlt, hall, hgood⟩
          by_cases hi : i = attempt
          · subst hi
            rw [hgood.1] at hcb
            exact absurd hcb (by simp)
          · have hia : attempt < i := lt_of_le_of_ne hle (Ne.symm hi)
            have hfc := hall attempt (le_refl _) hia
            rw [hfc.1] at hcb
            exact absurd hcb (by simp)
      · have hcb' : (env attempt).cancelBefore = false := by
          simpa using hcb
        by_cases hop : (env attempt).openOk = true
        · by_cases hca : (env attempt).cancelAfter = true
          · have hres : (dlGo env (f + 1) attempt st).1 = false := by
              simp [dlGo, hcb', hop, hca]
            rw [hres]
            constructor
            · intro h
              simp at h
            · rintro ⟨i, hle, hlt, hall, hgood⟩
              by_cases hi : i = attempt
              · subst hi
                rw [hgood.2.2.1] at hca
                exact absurd hca (by simp)
              · have hia : attempt < i := lt_of_le_of_ne hle (Ne.symm hi)
                have hfc := hall attempt (le_refl _) hia
                rw [hfc.2.2.1] at hca
                exact absurd hca (by simp)
          · have hca' : (env attempt).cancelAfter = false := by
              simpa using hca
            by_cases hs : (env attempt).curlOk = true ∧
                200 ≤ (env attempt).status ∧ (env attempt).status < 300
            · have hres : (dlGo env (f + 1) attempt st).1 = true := by
                simp [dlGo, hcb', hop, hca', hs]
              rw [hres]
              constructor
              · intro _
                refine ⟨attempt, le_refl _, by omega, ?_, ?_⟩
                · intro j h1 h2
                  omega
                · exact ⟨hcb', hop, hca', hs.1, hs.2.1, hs.2.2⟩
              · intro _
                rfl
            · by_cases hf : f = 0
              · subst hf
                have hres : (dlGo env 1 attempt st).1 = false := by
                  simp [dlGo, hcb', hop, hca', hs]
                rw [hres]
                constructor
                · intro h
                  simp at h
                · rintro ⟨i, hle, hlt, hall, hgood⟩
                  have hi : i = attempt := by omega
                  subst hi
                  exact (hs ⟨hgood.2.2.2.1, hgood.2.2.2.2⟩).elim
              · have hfc : failCleanA (env attempt) := ⟨hcb', hop, hca', hs⟩
                have hres : dlGo env (f + 1) attempt st =
                    dlGo env f (attempt + 1)
                      { st with tmp := none,
                                attempts := st.attempts + 1,
                                lines := LogEntry.retryMsg attempt :: st.lines } := by
                  simp [dlGo, hcb', hop, hca', hs, hf]
                rw [hres, ih]
                constructor
                · rintro ⟨i, hle, hlt, hall, hgood⟩
                  refine ⟨i, by omega, by omega, ?_, hgood⟩
                  intro j h1 h2
                  by_cases hj : j = attempt
                  · subst hj
                    exact hfc
                  · exact hall j (by omega) h2
                · rintro ⟨i, hle, hlt, hall, hgood⟩
                  have hi : ¬ i = attempt := by
                    intro hi
                    subst hi
                    exact hs ⟨hgood.2.2.2.1, hgood.2.2.2.2⟩
                  refine ⟨i, by omega, by omega, ?_, hgood⟩
                  intro j h1 h2
                  exact hall j (by omega) h2
        · have hop' : (env attempt).openOk = false := by
            simpa using hop
          have hres : (dlGo env (f + 1) attempt st).1 = false := by
            simp [dlGo, hcb', hop']
          rw [hres]
          constructor
          · intro h
            simp at h
          · rintro ⟨i, hle, hlt, hall, hgood⟩
            by_cases hi : i = attempt
            · subst hi
              rw [hgood.2.1] at hop'
              exact absurd hop' (by simp)
            · have hia : attempt < i := lt_of_le_of_ne hle (Ne.symm hi)
              have hfc := hall attempt (le_refl _) hia
              rw [hfc.2.1] at hop'
              exact absurd hop' (by simp)

lemma dlGo_state (env : Nat → DlAttempt) :
    ∀ (fuel attempt : Nat) (st : DlState),
      ((dlGo env fuel attempt st).1 = true →
        (dlGo env fuel attempt st).2.tmp = none ∧
        ∃ i, attempt ≤ i ∧ i < attempt + fuel ∧ goodA (env i) ∧
          (dlGo env fuel attempt st).2.dest = some (env i).body) ∧
      ((dlGo env fuel attempt st).1 = false →
        (dlGo env fuel attempt st).2.dest = st.dest ∧
        ((dlGo env fuel attempt st).2.tmp = st.tmp ∨
         (dlGo env fuel attempt st).2.tmp = none ∨
         ∃ i, (env i).cancelAfter = true ∧
           (dlGo env fuel attempt st).2.tmp = some (env i).body)) := by
  intro fuel
  induction fuel with
  | zero =>
      intro attempt st
      constructor
      · intro h
        simp [dlGo] at h
      · intro _
        exact ⟨rfl, Or.inl rfl⟩
  | succ f ih =>
      intro attempt st
      by_cases hcb : (env attempt).cancelBefore = true
      · have hres : dlGo env (f + 1) attempt st = (false, st) := by
          simp [dlGo, hcb]
        rw [hres]
        constructor
        · intro h
          simp at h
        · intro _
          exact ⟨rfl, Or.inl rfl⟩
      · have hcb' : (env attempt).cancelBefore = false := by
          simpa using hcb
        by_cases hop : (env attempt).openOk = true
        · by_cases hca : (env attempt).cancelAfter = true
          · have hres : dlGo env (f + 1) attempt st =
                (false, { st with tmp := some (env attempt).body,
                                  attempts := st.attempts + 1 }) := by
              simp [dlGo, hcb', hop, hca]
            rw [hres]
            constructor
            · intro h
              simp at h
            · intro _
              exact ⟨rfl, Or.inr (Or.inr ⟨attempt, hca, rfl⟩)⟩
          · have hca' : (env attempt).cancelAfter = false := by
              simpa using hca
            by_cases hs : (env attempt).curlOk = true ∧
                200 ≤ (env attempt).status ∧ (env attempt).status < 300
            · have hres : dlGo env (f + 1) attempt st =
                  (true, { st with tmp := none,
                                   dest := some (env attempt).body,
                                   attempts := st.attempts + 1 }) := by
                simp [dlGo, hcb', hop, hca', hs]
              rw [hres]
              constructor
              · intro _
                exact ⟨rfl, attempt, le_refl _, by omega,
                  ⟨hcb', hop, hca', hs.1, hs.2.1, hs.2.2⟩, rfl⟩
              · intro h
                simp at h
            · by_cases hf : f = 0
              · subst hf
                have hres : dlGo env 1 attempt st =
                    (false, { st with tmp := none,
                                      attempts := st.attempts + 1,
                                      failures := LogEntry.dlFailMsg :: st.failures }) := by
                  simp [dlGo, hcb', hop, hca', hs]
                rw [hres]
                constructor
                · intro h
                  simp at h
                · intro _
                  exact ⟨rfl, Or.inr (Or.inl rfl)⟩
              · have hres : dlGo env (f + 1) attempt st =
                    dlGo env f (attempt + 1)
                      { st with tmp := none,
                                attempts := st.attempts + 1,
                                lines := LogEntry.retryMsg attempt :: st.lines } := by
                  simp [dlGo, hcb', hop, hca', hs, hf]
                rw [hres]
                obtain ⟨ih1, ih2⟩ := ih (attempt + 1)
                  { st with tmp := none,
                            attempts := st.attempts + 1,
                            lines := LogEntry.retryMsg attempt :: st.lines }
                constructor
                · intro h
                  obtain ⟨htmp, i, h1, h2, hgood, hdest⟩ := ih1 h
                  exact ⟨htmp, i, by omega, by omega, hgood, hdest⟩
                · intro h
                  obtain ⟨hdest, htmp⟩ := ih2 h
                  refine ⟨hdest, ?_⟩
                  rcases htmp with h1 | h2 | h3
                  · exact Or.inr (Or.inl h1)
                  · exact Or.inr (Or.inl h2)
                  · exact Or.inr (Or.inr h3)
        · have hop' : (env attempt).openOk = false := by
            simpa using hop
          have hres : dlGo env (f + 1) attempt st =
              (false, { st with tmp := none,
                                failures := LogEntry.openFailMsg :: st.failures }) := by
            simp [dlGo, hcb', hop']
          rw [hres]
          constructor
          · intro h
            simp at h
          · intro _
            exact ⟨rfl, Or.inr (Or.inl rfl)⟩

/-- C1 (amended): `download_file` returns true exactly when some attempt
within the retry budget is reached with all earlier attempts failing cleanly
and completes with transport OK and HTTP 2xx, with cancellation unobserved;
only such an attempt creates or replaces the destination, and then no `.part`
file remains; when false is returned the destination is unchanged and the
`.part` file is untouched-or-removed — except that if cancellation is
observed right after a transfer, the function returns false immediately and
the `.part` file of that attempt may remain. -/
theorem download_file_contract (env : Nat → DlAttempt) (retries : Int)
    (st0 : DlState) :
    ((download_file env retries st0).1 = true ↔
      ∃ i, 1 ≤ i ∧ i ≤ retries.toNat ∧ dlSucceedsAt env 1 i) ∧
    ((download_file env retries st0).1 = true →
      (download_file env retries st0).2.tmp = none ∧
      ∃ i, 1 ≤ i ∧ i ≤ retries.toNat ∧ goodA (env i) ∧
        (download_file env retries st0).2.dest = some (env i).body) ∧
    ((download_file env retries st0).1 = false →
      (download_file env retries st0).2.dest = st0.dest ∧
      ((download_file env retries st0).2.tmp = st0.tmp ∨
       (download_file env retries st0).2.tmp = none ∨
       ∃ i, (env i).cancelAfter = true ∧
         (download_file env retries st0).2.tmp = some (env i).body)) := by
  have hiff := dlGo_true_iff env retries.toNat 1 st0
  have hstate := dlGo_state env retries.toNat 1 st0
  refine ⟨?_, ?_, hstate.2⟩
  · unfold download_file
    rw [hiff]
    constructor
    · rintro ⟨i, h1, h2, h3⟩
      exact ⟨i, h1, by omega, h3⟩
    · rintro ⟨i, h1, h2, h3⟩
      exact ⟨i, h1, by omega, h3⟩
  · intro h
    obtain ⟨htmp, i, h1, h2, hg, hd⟩ := hstate.1 h
    exact ⟨htmp, i, h1, by omega, hg, hd⟩

/-- C1 counterexample: a single attempt completes with HTTP 500 (a failed,
non-2xx attempt), but because the cancellation flag is observed set right
after the transfer (src/main.cpp:454), `download_file` returns false without
removing the `.part` file: the final state still has the temporary file,
refuting "on every failed attempt the temporary '.part' sibling file is
removed". -/
theorem download_file_cex :
    download_file (fun _ => DlAttempt.mk false true true 500 7 true) 1
        (DlState.mk none none [] [] 0)
      = (false, DlState.mk (some 7) none [] [] 1) ∧
    ((fun (_ : Nat) => DlAttempt.mk false true true 500 7 true) 1).curlOk
        = true ∧
    ¬ ((200 : Int) ≤ 500 ∧ (500 : Int) < 300) := by
  exact ⟨rfl, rfl, by decide⟩

/-- Witness for C1: a concrete call whose first attempt succeeds with HTTP
200; the theorem's iff yields the returned value true. -/
theorem download_file_contract_witness :
    (download_file (fun _ => DlAttempt.mk false true true 200 3 false) 3
        (DlState.mk none none [] [] 0)).1 = true :=
  (download_file_contract (fun _ => DlAttempt.mk false true true 200 3 false) 3
      (DlState.mk none none [] [] 0)).1.mpr
    ⟨1, le_refl 1, by decide,
      fun j h1 h2 => absurd h2 (by omega),
      rfl, rfl, rfl, rfl, by decide, by decide⟩

/-- `std::clamp` on integers, as used for the retries field at
src/main.cpp:991 and src/main.cpp:1011. -/
def clampInt (v lo hi : Int) : Int :=
  if v < lo then lo else if hi < v then hi else v

/-- C10: with a retry budget of zero or less, `download_file` performs no
loop iteration: it returns false with the state — temporary file,
destination, log lines, failure lines and transfer count — exactly as it was
(no network attempt, no file created, nothing logged); and the settings UI
clamps the retries input to `[0, 20]`, with 0 itself reachable. -/
theorem download_file_zero_retries (env : Nat → DlAttempt) (st0 : DlState)
    (retries : Int) (h : retries ≤ 0) :
    download_file env retries st0 = (false, st0) ∧
    (∀ x : Int, 0 ≤ clampInt x 0 20 ∧ clampInt x 0 20 ≤ 20) ∧
    clampInt 0 0 20 = 0 := by
  refine ⟨?_, ?_, by decide⟩
  · unfold download_file
    have h0 : retries.toNat = 0 := Int.toNat_of_nonpos h
    rw [h0]
    rfl
  · intro x
    unfold clampInt
    split_ifs <;> omega

/-- Witness for C10: the theorem applied at retry budget 0 with a concrete
environment and state. -/
theorem download_file_zero_retries_witness :
    download_file (fun _ => DlAttempt.mk false true true 200 3 false) 0
        (DlState.mk none none [] [] 0)
      = (false, DlState.mk none none [] [] 0) :=
  (download_file_zero_retries
      (fun _ => DlAttempt.mk false true true 200 3 false)
      (DlState.mk none none [] [] 0) 0 (by decide)).1

/-- `bzerror` values relevant to the stream loop: `BZ_OK`, `BZ_STREAM_END`,
and any other (error) value. -/
inductive BzErr where
  | ok
  | streamEnd
  | err
deriving DecidableEq, Repr

/-- One `BZ2_bzRead` observation: the cancellation flag polled at the loop
head (src/main.cpp:510), the resulting `bzerror`, and the number of bytes
returned. -/
structure BzRead where
  cancelPoll : Bool
  e : BzErr
  n : Nat

/-- Environment of one decompression attempt, in source order: cancellation
at the outer loop head (src/main.cpp:483), fopen of the compressed input and
of the destination (src/main.cpp:487-492), `BZ2_bzReadOpen`
(src/main.cpp:501), then the stream of `BZ2_bzRead` results. -/
structure BzAttempt where
  cancelBefore : Bool
  inOpenOk : Bool
  outOpenOk : Bool
  readOpenOk : Bool
  reads : List BzRead

/-- Observable state of `decompress_bz2_to_file`: the destination file
(`none` absent; `some chunks` present with the written chunk sizes) and the
number of failure lines pushed. -/
structure BzState where
  dest : Option (List Nat)
  failures : Nat
deriving DecidableEq, Repr

/-- The chunk loop of `decompress_bz2_to_file` (src/main.cpp:510-519):
returns the final `bzerror` of the loop, the chunks written, and whether the
loop was left because cancellation was observed.  (The input list is the
sequence of read results up to the terminating one.) -/
def bzLoop : List BzRead → BzErr → List Nat → BzErr × List Nat × Bool
  | [], bzerr, acc => (bzerr, acc, false)
  | r :: rest, bzerr, acc =>
    if r.cancelPoll then (bzerr, acc, true)
    else
      match r.e with
      | BzErr.ok => bzLoop rest BzErr.ok (if 0 < r.n then acc ++ [r.n] else acc)
      | BzErr.streamEnd =>
          (BzErr.streamEnd, (if 0 < r.n then acc ++ [r.n] else acc), false)
      | BzErr.err => (BzErr.err, acc, false)

/-- The retry loop of `decompress_bz2_to_file` (src/main.cpp:481-538).
Opening the destination with mode "wb" creates/truncates it even when the
input cannot be opened.  After the chunk loop, `BZ2_bzReadClose`
(src/main.cpp:521) stores `BZ_OK` into `bzerror` for a read-mode stream, so
the subsequent success test (src/main.cpp:527) compares against `BZ_OK` and
always passes; the delete-and-retry branch below it is therefore dead code
(kept here verbatim). -/
def bzGo (env : Nat → BzAttempt) : Nat → Nat → BzState → Bool × BzState
  | 0, _, st => (false, st)
  | fuel + 1, attempt, st =>
    let a := env attempt
    if a.cancelBefore then (false, st)
    else
      let st1 : BzState :=
        if a.outOpenOk then { st with dest := some [] } else st
      if a.inOpenOk = false ∨ a.outOpenOk = false then
        (false, { st1 with failures := st1.failures + 1 })
      else if a.readOpenOk = false then
        (false, { st1 with failures := st1.failures + 1 })
      else
        match bzLoop a.reads BzErr.ok [] with
        | (_, chunks, cancelled) =>
          let st2 : BzState := { st1 with dest := some chunks }
          let bzerrAfterClose := BzErr.ok
          if cancelled then (false, st2)
          else if bzerrAfterClose = BzErr.streamEnd ∨ bzerrAfterClose = BzErr.ok
          then (true, st2)
          else
            let st3 : BzState := { st2 with dest := none }
            if fuel = 0 then (false, { st3 with failures := st3.failures + 1 })
            else bzGo env fuel (attempt + 1) st3

/-- `decompress_bz2_to_file` from src/main.cpp:481. -/
def decompress_bz2_to_file (env : Nat → BzAttempt) (retries : Int)
    (st : BzState) : Bool × BzState :=
  bzGo env retries.toNat 1 st

/-- C8 (code evaluated at the failing inputs): first, an attempt whose only
read terminates with a data error (`BZ_DATA_ERROR`, not a clean
end-of-stream) still returns TRUE and keeps the (partial, here empty)
destination, because `BZ2_bzReadClose` overwrites `bzerror` with `BZ_OK`
before the success test — the destination is not deleted and no retry
happens.  Second, when the compressed input cannot be opened but the
destination can, the destination is created/truncated by `fopen(.., "wb")`
and left on disk while the function returns false — again not deleted. -/
theorem decompress_bz2_keeps_dest_on_error :
    decompress_bz2_to_file
        (fun _ => BzAttempt.mk false true true true [BzRead.mk false BzErr.err 0])
        3 (BzState.mk none 0)
      = (true, BzState.mk (some []) 0) ∧
    decompress_bz2_to_file
        (fun _ => BzAttempt.mk false false true true [])
        3 (BzState.mk none 0)
      = (false, BzState.mk (some []) 1) := by
  exact ⟨rfl, rfl⟩

/-- The admission loop of the decompression phase (src/main.cpp:870-875),
sequentialized: one cancellation poll per admission, at increasing poll
times; a set flag stops admissions. -/
def admitCount (cancel : Nat → Bool) : Nat → Nat → Nat
  | _, 0 => 0
  | t, n + 1 => if cancel t then 0 else admitCount cancel (t + 1) n + 1

/-- The deletion loop (src/main.cpp:899-905): polls cancellation before each
removal, removes files in order until cancelled. -/
def delLoop (cancel : Nat → Bool) : Nat → List (List Char) → List (List Char)
  | _, [] => []
  | t, b :: rest => if cancel t then [] else b :: delLoop cancel (t + 1) rest

/-- Outcome of the post-download part of `run_pipeline`
(src/main.cpp:849-907): whether the decompressing phase ran, how many
decompression work items were admitted, whether the deleting phase ran, and
which `.bz2` files were removed. -/
structure TailResult where
  decompressRan : Bool
  decompressAdmitted : Nat
  deletingRan : Bool
  deleted : List (List Char)
deriving DecidableEq, Repr

/-- The post-download part of `run_pipeline` (src/main.cpp:849-907): the
cancellation gate after downloading (line 849, poll time 0); if `decompress`
is configured, the decompression admission loop (poll times 1..len); then the
deleting phase only under `delete_bz2 && !cancel` (line 893, poll time
1+len), each removal polling again (times 2+len..). -/
def runTail (dec del : Bool) (bz2s : List (List Char)) (cancel : Nat → Bool) :
    TailResult :=
  if cancel 0 then TailResult.mk false 0 false []
  else if dec then
    let admitted := admitCount cancel 1 bz2s.length
    let gate := del && !(cancel (1 + bz2s.length))
    let deleted := if gate then delLoop cancel (2 + bz2s.length) bz2s else []
    TailResult.mk true admitted gate deleted
  else TailResult.mk false 0 false []

lemma admitCount_of_no_cancel (cancel : Nat → Bool) :
    ∀ (n t : Nat), (∀ k, k < t + n → cancel k = false) →
      admitCount cancel t n = n := by
  intro n
  induction n with
  | zero => intro t _; rfl
  | succ m ih =>
      intro t h
      have ht : cancel t = false := h t (by omega)
      have hrest : ∀ k, k < (t + 1) + m → cancel k = false := by
        intro k hk
        exact h k (by omega)
      simp [admitCount, ht, ih (t + 1) hrest]

lemma delLoop_subset (cancel : Nat → Bool) (b : List Char) :
    ∀ (l : List (List Char)) (t : Nat), b ∈ delLoop cancel t l → b ∈ l := by
  intro l
  induction l with
  | nil => intro t h; simp [delLoop] at h
  | cons x rest ih =>
      intro t h
      by_cases hc : cancel t = true
      · simp [delLoop, hc] at h
      · have hc' : cancel t = false := by simpa using hc
        simp only [delLoop, hc', Bool.false_eq_true, if_false] at h
        rcases List.mem_cons.mp h with h | h
        · simp [h]
        · exact List.mem_cons_of_mem _ (ih (t + 1) h)

/-- C3: with a monotone cancellation flag (once set it stays set, as in the
program where `cancel` is cleared only at run entry), the Deleting phase runs
only when decompression is configured, deletion-after-decompression is
configured, the Decompressing phase ran, and every decompression work item
was admitted (the phase completed without observed cancellation); and every
`.bz2` file removed is removed only during such a Deleting phase and comes
from the decompression worklist. -/
theorem deleting_phase_gated (dec del : Bool) (bz2s : List (List Char))
    (cancel : Nat → Bool)
    (hmono : ∀ i j, i ≤ j → cancel i = true → cancel j = true) :
    ((runTail dec del bz2s cancel).deletingRan = true →
      dec = true ∧ del = true ∧
      (runTail dec del bz2s cancel).decompressRan = true ∧
      (runTail dec del bz2s cancel).decompressAdmitted = bz2s.length) ∧
    (∀ b ∈ (runTail dec del bz2s cancel).deleted,
      (runTail dec del bz2s cancel).deletingRan = true ∧ b ∈ bz2s) := by
  by_cases h0 : cancel 0 = true
  · constructor
    · intro h
      simp [runTail, h0] at h
    · intro b hb
      simp [runTail, h0] at hb
  · have h0' : cancel 0 = false := by simpa using h0
    rcases hdec : dec with _ | _
    · constructor
      · intro h
        simp [runTail, h0', hdec] at h
      · intro b hb
        simp [runTail, h0', hdec] at hb
    · have hrt : runTail true del bz2s cancel =
          TailResult.mk true (admitCount cancel 1 bz2s.length)
            (del && !(cancel (1 + bz2s.length)))
            (if del && !(cancel (1 + bz2s.length)) then
              delLoop cancel (2 + bz2s.length) bz2s else []) := by
        simp [runTail, h0']
      rw [hrt]
      constructor
      · intro h
        obtain ⟨hdel, hnc⟩ := Bool.and_eq_true_iff.mp h
        have hnc' : cancel (1 + bz2s.length) = false := by
          simpa using hnc
        refine ⟨rfl, hdel, rfl, ?_⟩
        apply admitCount_of_no_cancel
        intro k hk
        rcases hck : cancel k with _ | _
        · rfl
        · exfalso
          have := hmono k (1 + bz2s.length) (by omega) hck
          rw [hnc'] at this
          exact Bool.false_ne_true this
      · intro b hb
        by_cases hgate : (del && !(cancel (1 + bz2s.length))) = true
        · simp only [hgate, if_true] at hb
          exact ⟨hgate, delLoop_subset cancel b bz2s (2 + bz2s.length) hb⟩
        · simp only [hgate] at hb
          simp at hb

/-- Witness for C3: never-cancelled run with both flags configured and one
`.bz2` file; the theorem's first implication yields that all one item was
admitted before deletion ran. -/
theorem deleting_phase_gated_witness :
    (runTail true true ["x.bz2".toList] (fun _ => false)).decompressAdmitted
      = (["x.bz2".toList] : List (List Char)).length :=
  ((deleting_phase_gated true true ["x.bz2".toList] (fun _ => false)
      (fun _ _ _ hc => hc)).1 (by decide)).2.2.2

/-- The concurrency cap: `int threads = std::max(1, s.threads)`
(src/main.cpp:760). -/
def natCap (threads : Int) : Nat := (max 1 threads).toNat

/-- State of one parallel phase's admission loop and workers: items not yet
admitted, `in_flight` increments (admissions), bodies started, bodies
finished (`in_flight` decrements), and the cancellation flag. -/
structure RunnerSt where
  pending : Nat
  admitted : Nat
  started : Nat
  finished : Nat
  cancelled : Bool
deriving DecidableEq, Repr

/-- Interleaving steps of the admission loop of src/main.cpp:763-775 /
818-845 and its workers: the cancellation flag may be set at any time; an
item is admitted only when one is pending, cancellation has not been
observed, and the observed `in_flight` count (admitted - finished) is below
the cap (the busy-wait at src/main.cpp:764-767 re-polls until that holds);
an admitted body may start; a started body may finish (the `fetch_sub` at
the end of the async body). -/
inductive RStep (N : Nat) : RunnerSt → RunnerSt → Prop
  | cancel (s : RunnerSt) : RStep N s { s with cancelled := true }
  | launch (s : RunnerSt) :
      0 < s.pending → s.cancelled = false → s.admitted - s.finished < N →
      RStep N s { s with pending := s.pending - 1, admitted := s.admitted + 1 }
  | start (s : RunnerSt) : s.started < s.admitted →
      RStep N s { s with started := s.started + 1 }
  | finish (s : RunnerSt) : s.finished < s.started →
      RStep N s { s with finished := s.finished + 1 }

/-- Reflexive-transitive closure of `RStep`. -/
inductive ReachFrom (N : Nat) : RunnerSt → RunnerSt → Prop
  | refl (s : RunnerSt) : ReachFrom N s s
  | tail {s t u : RunnerSt} : ReachFrom N s t → RStep N t u → ReachFrom N s u

/-- Initial state of a phase with `m` work items. -/
def runnerInit (m : Nat) : RunnerSt := ⟨m, 0, 0, 0, false⟩

/-- Inductive invariant of a phase run. -/
def runnerInv (N : Nat) (s : RunnerSt) : Prop :=
  s.finished ≤ s.started ∧ s.started ≤ s.admitted ∧ s.admitted - s.finished ≤ N

lemma rstep_preserves_inv (N : Nat) {s t : RunnerSt} (hst : RStep N s t)
    (h : runnerInv N s) : runnerInv N t := by
  obtain ⟨h1, h2, h3⟩ := h
  cases hst with
  | cancel => exact ⟨h1, h2, h3⟩
  | launch hp hc hn =>
      refine ⟨?_, ?_, ?_⟩
      · show s.finished ≤ s.started
        omega
      · show s.started ≤ s.admitted + 1
        omega
      · show s.admitted + 1 - s.finished ≤ N
        omega
  | start hs =>
      refine ⟨?_, ?_, ?_⟩
      · show s.finished ≤ s.started + 1
        omega
      · show s.started + 1 ≤ s.admitted
        omega
      · show s.admitted - s.finished ≤ N
        omega
  | finish hf =>
      refine ⟨?_, ?_, ?_⟩
      · show s.finished + 1 ≤ s.started
        omega
      · show s.started ≤ s.admitted
        omega
      · show s.admitted - (s.finished + 1) ≤ N
        omega

lemma reach_inv (N : Nat) {s t : RunnerSt} (h : ReachFrom N s t)
    (hs : runnerInv N s) : runnerInv N t := by
  induction h with
  | refl => exact hs
  | tail hreach hstep ih => exact rstep_preserves_inv N hstep ih

lemma rstep_after_cancel (N : Nat) {s t : RunnerSt} (hst : RStep N s t)
    (hc : s.cancelled = true) : t.cancelled = true ∧ t.admitted = s.admitted := by
  cases hst with
  | cancel => exact ⟨rfl, rfl⟩
  | launch hp hcf hn =>
      rw [hc] at hcf
      exact absurd hcf (by simp)
  | start hs => exact ⟨hc, rfl⟩
  | finish hf => exact ⟨hc, rfl⟩

lemma reach_after_cancel (N : Nat) {s t : RunnerSt} (h : ReachFrom N s t)
    (hc : s.cancelled = true) : t.admitted = s.admitted ∧ t.cancelled = true := by
  induction h with
  | refl => exact ⟨rfl, hc⟩
  | tail hreach hstep ih =>
      obtain ⟨ha, hcc⟩ := ih
      obtain ⟨hcc2, ha2⟩ := rstep_after_cancel N hstep hcc
      exact ⟨ha2.trans ha, hcc2⟩

/-- C9: in every parallel phase with cap `N = max(1, threads)` (a positive
number), every state reachable from the phase's initial state has at most `N`
work-item bodies executing concurrently (started minus finished, which is
bounded by the in-flight count admitted minus finished); once the
cancellation flag is set no further work item is ever admitted; and a started
body can always take its finishing step (in-flight items are allowed to
finish). -/
theorem bounded_runner_contract (threads : Int) (m : Nat) (s : RunnerSt)
    (h : ReachFrom (natCap threads) (runnerInit m) s) :
    (s.started - s.finished ≤ natCap threads ∧
     s.admitted - s.finished ≤ natCap threads) ∧
    (∀ s', ReachFrom (natCap threads) s s' → s.cancelled = true →
      s'.admitted = s.admitted) ∧
    1 ≤ natCap threads ∧
    (s.finished < s.started →
      RStep (natCap threads) s { s with finished := s.finished + 1 }) := by
  have hinv : runnerInv (natCap threads) s :=
    reach_inv (natCap threads) h ⟨by simp [runnerInit], by simp [runnerInit],
      by simp [runnerInit]⟩
  obtain ⟨h1, h2, h3⟩ := hinv
  refine ⟨⟨by omega, h3⟩, ?_, ?_, ?_⟩
  · intro s' hs' hc
    exact (reach_after_cancel (natCap threads) hs' hc).1
  · have hmax : (1 : Int) ≤ max 1 threads := le_max_left 1 threads
    unfold natCap
    omega
  · intro hf
    exact RStep.finish s hf

/-- Witness for C9: with cap `max(1, 2) = 2` and one item, the state after
admitting and starting that item is reachable, and the theorem bounds it. -/
theorem bounded_runner_contract_witness :
    (RunnerSt.mk 0 1 1 0 false).started - (RunnerSt.mk 0 1 1 0 false).finished
      ≤ natCap 2 ∧
    (RunnerSt.mk 0 1 1 0 false).admitted - (RunnerSt.mk 0 1 1 0 false).finished
      ≤ natCap 2 :=
  (bounded_runner_contract 2 1 (RunnerSt.mk 0 1 1 0 false)
    (ReachFrom.tail
      (ReachFrom.tail (ReachFrom.refl (runnerInit 1))
        (RStep.launch (runnerInit 1) (by decide) rfl (by decide)))
      (RStep.start (RunnerSt.mk 0 1 0 0 false) (by decide)))).1
